import Mathlib

/-!
Verification of the NFA-to-DFA subset construction (`script.js`).

The JavaScript source is shallowly embedded:

* JS arrays become `List`, JS objects become association lists
  (`List (String × _)`, first-key-wins lookup, insertion order kept),
  JS `Set`/`Map` become insertion-ordered duplicate-free lists.
* `Array.prototype.sort()` (lexicographic string comparison) is modelled
  by an insertion sort over a computable character-wise comparison
  `strLe`, proved below to agree with Mathlib's linear order on `String`.
* The two worklist loops (in `epsilonClosure` and the main `while` loop
  of `convertNFAtoDFA`) carry an explicit fuel parameter so that every
  definition is executable; the fuel supplied by the wrappers is proved
  sufficient (each loop drains its worklist), which is exactly the
  termination argument of the source.
* A JS stack (`push`/`pop` at the array end) is modelled with the list
  head as the stack top; a JS FIFO queue (`push` at the end, `shift` at
  the front) keeps the list head as the queue front.
-/

namespace NfaToDfa

/-- Computable lexicographic comparison of character lists, mirroring the
code-unit-wise comparison JS uses for strings. -/
def charListLt : List Char → List Char → Bool
  | _, [] => false
  | [], _ :: _ => true
  | a :: as, b :: bs => if a < b then true else if b < a then false else charListLt as bs

/-- Computable strict order on strings (JS `a < b`). -/
def strLt (a b : String) : Bool := charListLt a.data b.data

/-- Computable non-strict order on strings (the JS sort comparator). -/
def strLe (a b : String) : Bool := !(strLt b a)

/-- The comparator relation used to model the JS default sort on strings. -/
def strLeRel : String → String → Prop := fun a b => strLe a b = true

instance : DecidableRel strLeRel := fun a b => instDecidableEqBool (strLe a b) true

/-- Model of JS `states.sort()`: sort the strings in ascending order. -/
def sortStates (l : List String) : List String := List.insertionSort strLeRel l

/-- Source `stateSetToString(states)`: canonical key of a set of NFA
states, the sorted identifiers joined with commas inside braces. -/
def stateSetToString (states : List String) : String :=
  "\x7b" ++ String.intercalate "," (sortStates states) ++ "\x7d"

/-- Model of the insertion-order-preserving `Set.add` of JS: append the
element unless it is already present. -/
def jsSetAdd (c : List String) (x : String) : List String :=
  if x ∈ c then c else c ++ [x]

/-- Model of JS `new Set(list)`: deduplicate keeping first occurrences. -/
def jsSetOfList (l : List String) : List String := l.foldl jsSetAdd []

/-- The type of the NFA transition table `{state: {symbol: [nextStates]}}`:
an association list from state to an association list from symbol to the
destination list. -/
abbrev TransMap := List (String × List (String × List String))

/-- The `NFA` class of the source. `acceptStates` is a JS `Set`,
modelled as a list queried by membership. -/
structure NFA where
  states : List String
  alphabet : List String
  transitions : TransMap
  startState : String
  acceptStates : List String
deriving DecidableEq

/-- The `DFA` class of the source; `transitions` is
`{state: {symbol: nextState}}` and `states` lists the discovered keys in
insertion order. -/
structure DFA where
  states : List String
  alphabet : List String
  transitions : List (String × List (String × String))
  startState : String
  acceptStates : List String
deriving DecidableEq

/-- Source expression `transitions[state]?.[symbol] || []`: a state with
no transitions entry, or an entry with no list for the symbol,
contributes the empty list. -/
def lookup2 (transitions : TransMap) (state symbol : String) : List String :=
  match transitions.lookup state with
  | none => []
  | some m => (m.lookup symbol).getD []

/-- Source expression `transitions[state]?.[""] || []`: the epsilon
destinations of a state. -/
def epsDests (transitions : TransMap) (state : String) : List String :=
  lookup2 transitions state ""

/-- One pass of the inner `for (const nextState of epsilonStates)` loop of
`epsilonClosure`: add to the closure (and push on the stack) every listed
destination not already in the closure. -/
def addNew : List String → List String → List String → List String × List String
  | closure, stack, [] => (closure, stack)
  | closure, stack, n :: ns =>
    if n ∈ closure then addNew closure stack ns
    else addNew (closure ++ [n]) (n :: stack) ns

/-- The `while (stack.length > 0)` loop of `epsilonClosure`, with fuel.
The stack top is the list head (JS pushes and pops at the array end). -/
def closureLoop (T : TransMap) (fuel : Nat) (closure stack : List String) : List String :=
  match stack with
  | [] => closure
  | s :: rest =>
    match fuel with
    | 0 => closure
    | f + 1 =>
      closureLoop T f (addNew closure rest (epsDests T s)).1
        (addNew closure rest (epsDests T s)).2

/-- All epsilon destinations listed anywhere in the transition table; the
closure loop can only ever add states from this list. -/
def epsUniv (T : TransMap) : List String :=
  T.flatMap (fun p => (p.2.lookup "").getD [])

/-- Fuel sufficient for `closureLoop` (proved adequate below). -/
def closureFuel (T : TransMap) (states : List String) : Nat :=
  2 * (epsUniv T).length + states.length + 1

/-- Source `epsilonClosure(states, transitions)`: worklist closure of the
input states under epsilon transitions; insertion-ordered, duplicate-free. -/
def epsilonClosure (states : List String) (transitions : TransMap) : List String :=
  closureLoop transitions (closureFuel transitions states) (jsSetOfList states)
    states.reverse

/-- Number of epsilon-universe states not yet in the closure: the
decreasing part of the termination measure of `closureLoop`. -/
def closurePot (T : TransMap) (closure : List String) : Nat :=
  ((epsUniv T).filter (fun x => decide (¬ x ∈ closure))).length

/-- The mutable state of `convertNFAtoDFA`: the discovery map `dfaStates`
(a JS `Map`, insertion-ordered), the transition object `dfaTransitions`,
the accept set `dfaAcceptStates` and the worklist `dfaQueue`. -/
structure Conv where
  dfaStates : List (String × List String)
  dfaTransitions : List (String × List (String × String))
  dfaAcceptStates : List String
  dfaQueue : List String
deriving DecidableEq

/-- JS object assignment `obj[k] = v`: overwrite in place if the key is
present, otherwise append. -/
def objAssign {α : Type} (m : List (String × α)) (k : String) (v : α) :
    List (String × α) :=
  if (m.lookup k).isSome then
    m.map (fun p => if p.1 = k then (k, v) else p)
  else m ++ [(k, v)]

/-- Source `currentNfaStates.flatMap(state => nfa.transitions[state]?.[symbol] || [])`. -/
def symUnion (T : TransMap) (cs : List String) (symbol : String) : List String :=
  cs.flatMap (fun state => lookup2 T state symbol)

/-- The closed symbol successor: `epsilonClosure(union, nfa.transitions)`. -/
def symNext (T : TransMap) (cs : List String) (symbol : String) : List String :=
  epsilonClosure (symUnion T cs symbol) T

/-- The body of `for (const symbol of nfa.alphabet)`: compute the closed
successor set; if non-empty, canonicalize it, memoize and enqueue it when
unseen, and record the transition entry for the symbol. The accumulator
is (dfaStates, dfaQueue, transition entry being built for the current
state). -/
def procSymbol (T : TransMap) (cs : List String)
    (acc : List (String × List String) × List String × List (String × String))
    (symbol : String) :
    List (String × List String) × List String × List (String × String) :=
  if 0 < (symNext T cs symbol).length then
    if ((acc.1).lookup (stateSetToString (symNext T cs symbol))).isSome then
      (acc.1, acc.2.1,
        objAssign acc.2.2 symbol (stateSetToString (symNext T cs symbol)))
    else
      (acc.1 ++ [(stateSetToString (symNext T cs symbol), symNext T cs symbol)],
        acc.2.1 ++ [stateSetToString (symNext T cs symbol)],
        objAssign acc.2.2 symbol (stateSetToString (symNext T cs symbol)))
  else acc

/-- One iteration of the main `while (dfaQueue.length > 0)` loop:
dequeue `currentDfaState` (= `ck`, with `rest` the remaining queue), mark
it accepting when its member set meets the NFA accept states, fold over
the alphabet, and store its finished transition entry. -/
def convStep (nfa : NFA) (st : Conv) (ck : String) (rest : List String) : Conv :=
  let cs := (st.dfaStates.lookup ck).getD []
  let r := nfa.alphabet.foldl (procSymbol nfa.transitions cs) (st.dfaStates, rest, [])
  ⟨r.1,
    objAssign st.dfaTransitions ck r.2.2,
    if cs.any (fun state => decide (state ∈ nfa.acceptStates)) then
      jsSetAdd st.dfaAcceptStates ck
    else st.dfaAcceptStates,
    r.2.1⟩

/-- The main worklist loop of `convertNFAtoDFA`, with fuel. -/
def convLoop (nfa : NFA) (fuel : Nat) (st : Conv) : Conv :=
  match st.dfaQueue with
  | [] => st
  | ck :: rest =>
    match fuel with
    | 0 => st
    | f + 1 => convLoop nfa f (convStep nfa st ck rest)

/-- Every state identifier the conversion can ever mention: the NFA start
state together with every destination listed in the transition table. -/
def stateUniv (nfa : NFA) : List String :=
  jsSetOfList (nfa.startState ::
    nfa.transitions.flatMap (fun p => p.2.flatMap (fun q => q.2)))

/-- Every canonical key the conversion can ever create: the keys of the
non-empty sublists of `stateUniv`. -/
def validKeys (nfa : NFA) : List String :=
  (((stateUniv nfa).sublists).filter (fun l => !l.isEmpty)).map stateSetToString

/-- Fuel sufficient for `convLoop` (proved adequate below). -/
def convFuel (nfa : NFA) : Nat := 2 * (validKeys nfa).length + 1

/-- Number of valid keys not yet discovered: the decreasing part of the
termination measure of `convLoop`. -/
def convPot (nfa : NFA) (m : List (String × List String)) : Nat :=
  ((validKeys nfa).filter (fun k => (m.lookup k).isNone)).length

/-- The state of the conversion just before the worklist loop starts:
the epsilon-closure of the singleton start set is canonicalized, recorded
in `dfaStates` and enqueued. -/
def convInit (nfa : NFA) : Conv :=
  ⟨[(stateSetToString (epsilonClosure [nfa.startState] nfa.transitions),
      epsilonClosure [nfa.startState] nfa.transitions)],
    [], [],
    [stateSetToString (epsilonClosure [nfa.startState] nfa.transitions)]⟩

/-- The final conversion state: run the worklist loop to completion. -/
def convRun (nfa : NFA) : Conv := convLoop nfa (convFuel nfa) (convInit nfa)

/-- Source `convertNFAtoDFA(nfa)`: assemble the returned `DFA` from the
final conversion state. -/
def convertNFAtoDFA (nfa : NFA) : DFA :=
  ⟨(convRun nfa).dfaStates.map Prod.fst,
    nfa.alphabet,
    (convRun nfa).dfaTransitions,
    stateSetToString (epsilonClosure [nfa.startState] nfa.transitions),
    (convRun nfa).dfaAcceptStates⟩

/-- The canonical key of the DFA start state. -/
def startKey (nfa : NFA) : String :=
  stateSetToString (epsilonClosure [nfa.startState] nfa.transitions)

/-- One step along a recorded DFA transition: some symbol entry of the
source state's transition object maps to the target key. -/
def dfaStep (transitions : List (String × List (String × String))) (a b : String) :
    Prop :=
  ∃ e, transitions.lookup a = some e ∧ ∃ sym, e.lookup sym = some b

/-- A well-formed NFA in the sense of the specification: the start state
is declared and every transition destination is a declared state. -/
def WellFormedNFA (nfa : NFA) : Prop :=
  nfa.startState ∈ nfa.states ∧
  ∀ p ∈ nfa.transitions, ∀ q ∈ p.2, ∀ d ∈ q.2, d ∈ nfa.states

/-- Invariant of the conversion loop, established by `convInit` and
preserved by `convStep`. -/
structure GoodConv (nfa : NFA) (st : Conv) : Prop where
  mapKeysNodup : (st.dfaStates.map Prod.fst).Nodup
  queueNodup : st.dfaQueue.Nodup
  queueInMap : ∀ k ∈ st.dfaQueue, (st.dfaStates.lookup k).isSome
  queueNotInTrans : ∀ k ∈ st.dfaQueue, st.dfaTransitions.lookup k = none
  queueNotAccept : ∀ k ∈ st.dfaQueue, ¬ k ∈ st.dfaAcceptStates
  acceptInMap : ∀ k ∈ st.dfaAcceptStates, k ∈ st.dfaStates.map Prod.fst
  entryGood : ∀ p ∈ st.dfaStates, p.1 = stateSetToString p.2 ∧ p.2.Nodup ∧
    ¬ p.2 = [] ∧ ∀ x ∈ p.2, x ∈ stateUniv nfa
  acceptIff : ∀ p ∈ st.dfaStates, ¬ p.1 ∈ st.dfaQueue →
    (p.1 ∈ st.dfaAcceptStates ↔ ∃ x ∈ p.2, x ∈ nfa.acceptStates)
  reach : ∀ p ∈ st.dfaStates,
    Relation.ReflTransGen (dfaStep st.dfaTransitions) (startKey nfa) p.1
  transGood : ∀ q ∈ st.dfaTransitions, ∃ cs,
    st.dfaStates.lookup q.1 = some cs ∧
    (∀ x v, q.2.lookup x = some v → v = stateSetToString (symNext nfa.transitions cs x)) ∧
    (∀ sym, symNext nfa.transitions cs sym = [] → q.2.lookup sym = none)

/-- All values recorded in a transition entry agree with the canonical
key of the corresponding symbol successor of the member set `cs`. -/
def EntryConsistent (T : TransMap) (cs : List String) (e : List (String × String)) :
    Prop :=
  ∀ x v, e.lookup x = some v → v = stateSetToString (symNext T cs x)

/-- The three-state example NFA of the specification scenario. -/
def exampleNFA : NFA :=
  ⟨["q0", "q1", "q2"], ["a", "b"],
    [("q0", [("a", ["q0", "q1"]), ("b", ["q0"])]), ("q1", [("a", ["q2"])])],
    "q0", ["q2"]⟩

/-- The DFA the specification scenario expects for `exampleNFA`. -/
def exampleDFA : DFA :=
  ⟨["\x7bq0\x7d", "\x7bq0,q1\x7d", "\x7bq0,q1,q2\x7d"], ["a", "b"],
    [("\x7bq0\x7d", [("a", "\x7bq0,q1\x7d"), ("b", "\x7bq0\x7d")]),
      ("\x7bq0,q1\x7d", [("a", "\x7bq0,q1,q2\x7d"), ("b", "\x7bq0\x7d")]),
      ("\x7bq0,q1,q2\x7d", [("a", "\x7bq0,q1,q2\x7d"), ("b", "\x7bq0\x7d")])],
    "\x7bq0\x7d", ["\x7bq0,q1,q2\x7d"]⟩

/-- An NFA whose state `q1` has no outgoing transitions: used to witness
the empty-destination behaviour. -/
def gapNFA : NFA :=
  ⟨["q0", "q1"], ["a", "b"], [("q0", [("a", ["q1"])])], "q0", ["q1"]⟩

/-- A transition table with one epsilon transition `q0 -ε-> q1`: used to
witness the closure properties. -/
def epsExampleT : TransMap := [("q0", [("", ["q1"])])]

theorem charListLt_iff_lt (as : List Char) : ∀ bs : List Char,
    charListLt as bs = true ↔ as < bs := by
  induction as with
  | nil =>
    intro bs
    cases bs with
    | nil =>
      simp only [charListLt]
      constructor
      · intro h; cases h
      · intro h; cases h
    | cons b bs =>
      simp only [charListLt]
      constructor
      · intro _; exact List.Lex.nil
      · intro _; trivial
  | cons a as ih =>
    intro bs
    cases bs with
    | nil =>
      simp only [charListLt]
      constructor
      · intro h; cases h
      · intro h; cases h
    | cons b bs =>
      simp only [charListLt]
      by_cases hab : a < b
      · simp only [hab, if_true]
        constructor
        · intro _; exact List.Lex.rel hab
        · intro _; trivial
      · by_cases hba : b < a
        · simp only [hab, hba, if_false, if_true]
          constructor
          · intro h; cases h
          · intro h
            cases h with
            | cons h => exact absurd hba (lt_irrefl a)
            | rel h => exact absurd h hab
        · have heq : a = b := le_antisymm (not_lt.mp hba) (not_lt.mp hab)
          simp only [hab, hba, if_false]
          constructor
          · intro h
            subst heq
            exact List.Lex.cons ((ih bs).mp h)
          · intro h
            cases h with
            | cons h => exact (ih bs).mpr h
            | rel h => exact absurd h hab

theorem strLt_iff (a b : String) : strLt a b = true ↔ a < b := by
  rw [strLt, charListLt_iff_lt, String.lt_iff_toList_lt]
  rfl

theorem strLe_iff (a b : String) : strLe a b = true ↔ a ≤ b := by
  rw [strLe, Bool.not_eq_true', Bool.eq_false_iff]
  rw [ne_eq, strLt_iff]
  exact not_lt

theorem strLeRel_total : ∀ a b, strLeRel a b ∨ strLeRel b a := fun a b => by
  rw [strLeRel, strLeRel, strLe_iff, strLe_iff]
  exact le_total a b

theorem strLeRel_trans : ∀ {a b c}, strLeRel a b → strLeRel b c → strLeRel a c := by
  intro a b c hab hbc
  rw [strLeRel, strLe_iff] at *
  exact le_trans hab hbc

theorem strLeRel_antisymm : ∀ {a b}, strLeRel a b → strLeRel b a → a = b := by
  intro a b hab hba
  rw [strLeRel, strLe_iff] at *
  exact le_antisymm hab hba

theorem sortStates_perm (l : List String) : (sortStates l).Perm l :=
  List.perm_insertionSort strLeRel l

theorem sortStates_sorted (l : List String) : List.Sorted strLeRel (sortStates l) := by
  haveI : IsTotal String strLeRel := ⟨strLeRel_total⟩
  haveI : IsTrans String strLeRel := ⟨fun _ _ _ => strLeRel_trans⟩
  exact List.sorted_insertionSort strLeRel l

theorem sortStates_eq_of_perm {l l' : List String} (h : l.Perm l') :
    sortStates l = sortStates l' := by
  haveI : IsAntisymm String strLeRel := ⟨fun _ _ => strLeRel_antisymm⟩
  exact List.eq_of_perm_of_sorted
    (((sortStates_perm l).trans h).trans (sortStates_perm l').symm)
    (sortStates_sorted l) (sortStates_sorted l')

theorem stateSetToString_eq_of_perm {l l' : List String} (h : l.Perm l') :
    stateSetToString l = stateSetToString l' := by
  rw [stateSetToString, stateSetToString, sortStates_eq_of_perm h]

theorem stateSetToString_eq_of_mem_iff {l l' : List String} (hl : l.Nodup)
    (hl' : l'.Nodup) (h : ∀ x, x ∈ l ↔ x ∈ l') :
    stateSetToString l = stateSetToString l' :=
  stateSetToString_eq_of_perm ((List.perm_ext_iff_of_nodup hl hl').mpr h)

theorem mem_jsSetAdd {c : List String} {x y : String} :
    y ∈ jsSetAdd c x ↔ y ∈ c ∨ y = x := by
  rw [jsSetAdd]
  by_cases h : x ∈ c
  · simp only [h, if_true]
    constructor
    · exact Or.inl
    · rintro (hy | rfl)
      · exact hy
      · exact h
  · simp [h]

theorem jsSetAdd_nodup {c : List String} (hc : c.Nodup) (x : String) :
    (jsSetAdd c x).Nodup := by
  rw [jsSetAdd]
  by_cases h : x ∈ c
  · simpa [h]
  · simp [List.nodup_append, h, hc]

theorem jsSetAdd_length_le (c : List String) (x : String) :
    (jsSetAdd c x).length ≤ c.length + 1 := by
  rw [jsSetAdd]
  by_cases h : x ∈ c <;> simp [h]

theorem mem_foldl_jsSetAdd (l : List String) : ∀ (c : List String) (x : String),
    x ∈ l.foldl jsSetAdd c ↔ x ∈ c ∨ x ∈ l := by
  induction l with
  | nil => simp
  | cons a l ih =>
    intro c x
    rw [List.foldl_cons, ih, mem_jsSetAdd]
    constructor
    · rintro ((h | h) | h)
      · exact Or.inl h
      · subst h
        exact Or.inr (List.mem_cons.mpr (Or.inl rfl))
      · exact Or.inr (List.mem_cons_of_mem _ h)
    · rintro (h | h)
      · exact Or.inl (Or.inl h)
      · rcases List.mem_cons.mp h with h | h
        · exact Or.inl (Or.inr h)
        · exact Or.inr h

theorem mem_jsSetOfList {l : List String} {x : String} :
    x ∈ jsSetOfList l ↔ x ∈ l := by
  rw [jsSetOfList, mem_foldl_jsSetAdd]
  simp

theorem foldl_jsSetAdd_nodup (l : List String) : ∀ c : List String, c.Nodup →
    (l.foldl jsSetAdd c).Nodup := by
  induction l with
  | nil => intro c hc; simpa
  | cons a l ih => intro c hc; exact ih _ (jsSetAdd_nodup hc a)

theorem jsSetOfList_nodup (l : List String) : (jsSetOfList l).Nodup :=
  foldl_jsSetAdd_nodup l [] List.nodup_nil

theorem foldl_jsSetAdd_length (l : List String) : ∀ c : List String,
    (l.foldl jsSetAdd c).length ≤ c.length + l.length := by
  induction l with
  | nil => simp
  | cons a l ih =>
    intro c
    rw [List.foldl_cons]
    calc (l.foldl jsSetAdd (jsSetAdd c a)).length
        ≤ (jsSetAdd c a).length + l.length := ih _
      _ ≤ (c.length + 1) + l.length := by
          exact Nat.add_le_add_right (jsSetAdd_length_le c a) _
      _ = c.length + (a :: l).length := by simp [Nat.add_assoc, Nat.add_comm 1]

theorem jsSetOfList_length_le (l : List String) :
    (jsSetOfList l).length ≤ l.length := by
  have := foldl_jsSetAdd_length l []
  simpa [jsSetOfList] using this

theorem lookup_mem {β : Type} : ∀ {l : List (String × β)} {k : String} {v : β},
    l.lookup k = some v → (k, v) ∈ l := by
  intro l
  induction l with
  | nil => intro k v h; simp [List.lookup] at h
  | cons p l ih =>
    intro k v h
    obtain ⟨a, b⟩ := p
    simp only [List.lookup] at h
    cases hak : k == a with
    | true =>
      rw [hak] at h
      have hk : k = a := by simpa using hak
      subst hk
      have h' : some b = some v := h
      simp only [Option.some.injEq] at h'
      subst h'
      exact List.mem_cons.mpr (Or.inl rfl)
    | false =>
      rw [hak] at h
      have h' : List.lookup k l = some v := h
      exact List.mem_cons_of_mem _ (ih h')

theorem lookup_isSome_iff {β : Type} : ∀ (l : List (String × β)) (k : String),
    (l.lookup k).isSome = true ↔ k ∈ l.map Prod.fst := by
  intro l
  induction l with
  | nil => intro k; simp [List.lookup]
  | cons p l ih =>
    intro k
    obtain ⟨a, b⟩ := p
    simp only [List.lookup, List.map_cons]
    cases hak : k == a with
    | true =>
      have hk : k = a := by simpa using hak
      subst hk
      constructor
      · intro _
        exact List.mem_cons.mpr (Or.inl rfl)
      · intro _
        rfl
    | false =>
      have hne : ¬ k = a := by simpa using hak
      show (List.lookup k l).isSome = true ↔ k ∈ a :: List.map Prod.fst l
      rw [ih]
      simp only [List.mem_cons]
      constructor
      · exact Or.inr
      · rintro (h | h)
        · exact absurd h hne
        · exact h

theorem lookup_eq_none_iff {β : Type} (l : List (String × β)) (k : String) :
    l.lookup k = none ↔ ¬ k ∈ l.map Prod.fst := by
  rw [← lookup_isSome_iff]
  cases l.lookup k <;> simp

theorem lookup_append_some {β : Type} : ∀ {l : List (String × β)}
    (l' : List (String × β)) {k : String} {v : β},
    l.lookup k = some v → (l ++ l').lookup k = some v := by
  intro l
  induction l with
  | nil => intro l' k v h; simp [List.lookup] at h
  | cons p l ih =>
    intro l' k v h
    obtain ⟨a, b⟩ := p
    simp only [List.lookup, List.cons_append] at h ⊢
    cases hak : k == a with
    | true =>
      rw [hak] at h
      exact h
    | false =>
      rw [hak] at h
      have h' : List.lookup k l = some v := h
      exact ih l' h'

theorem lookup_append_none {β : Type} : ∀ {l : List (String × β)}
    (l' : List (String × β)) {k : String},
    l.lookup k = none → (l ++ l').lookup k = l'.lookup k := by
  intro l
  induction l with
  | nil => intro l' k _; rfl
  | cons p l ih =>
    intro l' k h
    obtain ⟨a, b⟩ := p
    simp only [List.lookup, List.cons_append] at h ⊢
    cases hak : k == a with
    | true =>
      rw [hak] at h
      have h' : some b = (none : Option β) := h
      simp at h'
    | false =>
      rw [hak] at h
      have h' : List.lookup k l = none := h
      exact ih l' h'

theorem lookup_none_of_append_none {β : Type} {l l' : List (String × β)}
    {k : String} (h : (l ++ l').lookup k = none) : l.lookup k = none := by
  cases hl : l.lookup k with
  | none => rfl
  | some v => rw [lookup_append_some l' hl] at h; exact absurd h (by simp)

theorem lookup_of_mem_nodup {β : Type} : ∀ {l : List (String × β)},
    (l.map Prod.fst).Nodup → ∀ {k : String} {v : β}, (k, v) ∈ l →
    l.lookup k = some v := by
  intro l
  induction l with
  | nil => intro _ k v h; simp at h
  | cons p l ih =>
    intro hn k v h
    obtain ⟨a, b⟩ := p
    simp only [List.map_cons, List.nodup_cons] at hn
    rcases List.mem_cons.mp h with hh | hh
    · rw [Prod.mk.injEq] at hh
      obtain ⟨h1, h2⟩ := hh
      subst h1; subst h2
      simp [List.lookup]
    · have hak : ¬ k = a := by
        intro heq
        exact hn.1 (List.mem_map.mpr ⟨(k, v), hh, heq⟩)
      have hb : (k == a) = false := by simpa using hak
      simp only [List.lookup, hb]
      exact ih hn.2 hh

theorem mem_stateUniv_of_dest {nfa : NFA} {p : String × List (String × List String)}
    (hp : p ∈ nfa.transitions) {q : String × List String} (hq : q ∈ p.2)
    {d : String} (hd : d ∈ q.2) : d ∈ stateUniv nfa := by
  rw [stateUniv, mem_jsSetOfList]
  exact List.mem_cons_of_mem _
    (List.mem_flatMap.mpr ⟨p, hp, List.mem_flatMap.mpr ⟨q, hq, hd⟩⟩)

theorem start_mem_stateUniv (nfa : NFA) : nfa.startState ∈ stateUniv nfa := by
  rw [stateUniv, mem_jsSetOfList]
  exact List.mem_cons.mpr (Or.inl rfl)

theorem lookup2_subset_stateUniv {nfa : NFA} (s sym : String) :
    ∀ d ∈ lookup2 nfa.transitions s sym, d ∈ stateUniv nfa := by
  intro d hd
  rw [lookup2] at hd
  cases h : nfa.transitions.lookup s with
  | none => rw [h] at hd; simp at hd
  | some m =>
    rw [h] at hd
    have hd' : d ∈ (m.lookup sym).getD [] := hd
    cases h2 : m.lookup sym with
    | none => rw [h2] at hd'; simp at hd'
    | some l =>
      rw [h2] at hd'
      simp only [Option.getD_some] at hd'
      exact mem_stateUniv_of_dest (lookup_mem h) (lookup_mem h2) hd'

theorem epsUniv_subset_stateUniv (nfa : NFA) :
    ∀ d ∈ epsUniv nfa.transitions, d ∈ stateUniv nfa := by
  intro d hd
  rw [epsUniv] at hd
  obtain ⟨p, hp, hd⟩ := List.mem_flatMap.mp hd
  cases h2 : p.2.lookup "" with
  | none => rw [h2] at hd; simp at hd
  | some l =>
    rw [h2] at hd
    simp only [Option.getD_some] at hd
    exact mem_stateUniv_of_dest hp (lookup_mem h2) hd

theorem epsDests_subset_epsUniv (T : TransMap) (s : String) :
    ∀ d ∈ epsDests T s, d ∈ epsUniv T := by
  intro d hd
  rw [epsDests, lookup2] at hd
  cases h : T.lookup s with
  | none => rw [h] at hd; simp at hd
  | some m =>
    rw [h] at hd
    have hd' : d ∈ (m.lookup "").getD [] := hd
    rw [epsUniv]
    exact List.mem_flatMap.mpr ⟨(s, m), lookup_mem h, hd'⟩

theorem addNew_nil (c st : List String) : addNew c st [] = (c, st) := rfl

theorem addNew_cons (c st : List String) (n : String) (ns : List String) :
    addNew c st (n :: ns) =
      if n ∈ c then addNew c st ns else addNew (c ++ [n]) (n :: st) ns := rfl

theorem mem_addNew_fst (ns : List String) : ∀ (c st : List String) (x : String),
    x ∈ (addNew c st ns).1 ↔ x ∈ c ∨ x ∈ ns := by
  induction ns with
  | nil => intro c st x; simp [addNew_nil]
  | cons n ns ih =>
    intro c st x
    rw [addNew_cons]
    by_cases hn : n ∈ c
    · rw [if_pos hn, ih]
      constructor
      · rintro (h | h)
        · exact Or.inl h
        · exact Or.inr (List.mem_cons_of_mem _ h)
      · rintro (h | h)
        · exact Or.inl h
        · rcases List.mem_cons.mp h with h | h
          · subst h; exact Or.inl hn
          · exact Or.inr h
    · rw [if_neg hn, ih]
      simp only [List.mem_append, List.mem_singleton, List.mem_cons]
      tauto

theorem mem_addNew_fst_of_mem {ns c st : List String} {x : String} (hx : x ∈ c) :
    x ∈ (addNew c st ns).1 := (mem_addNew_fst ns c st x).mpr (Or.inl hx)

theorem mem_addNew_snd (ns : List String) : ∀ (c st : List String) (x : String),
    x ∈ (addNew c st ns).2 → x ∈ st ∨ x ∈ ns := by
  induction ns with
  | nil => intro c st x h; exact Or.inl h
  | cons n ns ih =>
    intro c st x h
    rw [addNew_cons] at h
    by_cases hn : n ∈ c
    · rw [if_pos hn] at h
      rcases ih c st x h with h | h
      · exact Or.inl h
      · exact Or.inr (List.mem_cons_of_mem _ h)
    · rw [if_neg hn] at h
      rcases ih _ _ x h with h | h
      · rcases List.mem_cons.mp h with h | h
        · exact Or.inr (List.mem_cons.mpr (Or.inl h))
        · exact Or.inl h
      · exact Or.inr (List.mem_cons_of_mem _ h)

theorem mem_addNew_snd_of_mem (ns : List String) : ∀ (c st : List String)
    (x : String), x ∈ st → x ∈ (addNew c st ns).2 := by
  induction ns with
  | nil => intro c st x h; exact h
  | cons n ns ih =>
    intro c st x h
    rw [addNew_cons]
    by_cases hn : n ∈ c
    · rw [if_pos hn]; exact ih c st x h
    · rw [if_neg hn]; exact ih _ _ x (List.mem_cons_of_mem _ h)

theorem addNew_new_mem_snd (ns : List String) : ∀ (c st : List String)
    (x : String), x ∈ (addNew c st ns).1 → ¬ x ∈ c → x ∈ (addNew c st ns).2 := by
  induction ns with
  | nil => intro c st x h hc; exact absurd h hc
  | cons n ns ih =>
    intro c st x h hc
    rw [addNew_cons] at h ⊢
    by_cases hn : n ∈ c
    · rw [if_pos hn] at h ⊢
      exact ih c st x h hc
    · rw [if_neg hn] at h ⊢
      by_cases hxc : x ∈ c ++ [n]
      · rcases List.mem_append.mp hxc with h' | h'
        · exact absurd h' hc
        · have : x = n := by simpa using h'
          subst this
          exact mem_addNew_snd_of_mem ns _ _ x (List.mem_cons.mpr (Or.inl rfl))
      · exact ih _ _ x h hxc

theorem addNew_nodup (ns : List String) : ∀ (c st : List String), c.Nodup →
    (addNew c st ns).1.Nodup := by
  induction ns with
  | nil => intro c st h; exact h
  | cons n ns ih =>
    intro c st h
    rw [addNew_cons]
    by_cases hn : n ∈ c
    · rw [if_pos hn]; exact ih c st h
    · rw [if_neg hn]
      exact ih _ _ (by simp [List.nodup_append, h, hn])

theorem length_filter_le_filter {α : Type} (p q : α → Bool) :
    ∀ l : List α, (∀ x ∈ l, q x = true → p x = true) →
    (l.filter q).length ≤ (l.filter p).length := by
  intro l
  induction l with
  | nil => intro _; simp
  | cons a l ih =>
    intro h
    have ht := ih (fun x hx => h x (List.mem_cons_of_mem _ hx))
    cases hq : q a with
    | true =>
      have hp : p a = true := h a (List.mem_cons.mpr (Or.inl rfl)) hq
      simp only [List.filter_cons, hq, hp, if_true, List.length_cons]
      omega
    | false =>
      cases hp : p a with
      | true =>
        simp [List.filter_cons, hq, hp]
        omega
      | false =>
        simp [List.filter_cons, hq, hp]
        omega

theorem length_filter_succ_le {α : Type} (p q : α → Bool) :
    ∀ l : List α, (∀ x ∈ l, q x = true → p x = true) →
    ∀ n ∈ l, p n = true → q n = false →
    (l.filter q).length + 1 ≤ (l.filter p).length := by
  intro l
  induction l with
  | nil => intro _ n hn; simp at hn
  | cons a l ih =>
    intro h n hn hp hq
    have hmono := length_filter_le_filter p q l
      (fun x hx => h x (List.mem_cons_of_mem _ hx))
    rcases List.mem_cons.mp hn with hna | hna
    · subst hna
      simp [List.filter_cons, hq, hp]
      omega
    · have ht := ih (fun x hx => h x (List.mem_cons_of_mem _ hx)) n hna hp hq
      cases hqa : q a with
      | true =>
        have hpa : p a = true := h a (List.mem_cons.mpr (Or.inl rfl)) hqa
        simp only [List.filter_cons, hqa, hpa, if_true, List.length_cons]
        omega
      | false =>
        cases hpa : p a with
        | true =>
          simp [List.filter_cons, hqa, hpa]
          omega
        | false =>
          simp [List.filter_cons, hqa, hpa]
          omega

theorem closurePot_append {T : TransMap} {c : List String} {n : String}
    (hn : n ∈ epsUniv T) (hnc : ¬ n ∈ c) :
    closurePot T (c ++ [n]) + 1 ≤ closurePot T c := by
  rw [closurePot, closurePot]
  apply length_filter_succ_le _ _ _ _ n hn
  · simp [hnc]
  · simp
  · intro x _ hx
    simp only [decide_eq_true_eq] at hx ⊢
    intro hxc
    exact hx (List.mem_append.mpr (Or.inl hxc))

theorem addNew_measure (T : TransMap) (ns : List String)
    (hns : ∀ n ∈ ns, n ∈ epsUniv T) : ∀ (c st : List String),
    2 * closurePot T (addNew c st ns).1 + (addNew c st ns).2.length ≤
      2 * closurePot T c + st.length := by
  induction ns with
  | nil => intro c st; simp [addNew_nil]
  | cons n ns ih =>
    intro c st
    have hns' : ∀ m ∈ ns, m ∈ epsUniv T :=
      fun m hm => hns m (List.mem_cons_of_mem _ hm)
    rw [addNew_cons]
    by_cases hn : n ∈ c
    · rw [if_pos hn]
      exact ih hns' c st
    · rw [if_neg hn]
      have h1 := ih hns' (c ++ [n]) (n :: st)
      have h2 := closurePot_append (hns n (List.mem_cons.mpr (Or.inl rfl))) hn
      simp only [List.length_cons] at h1
      omega



theorem closureLoop_stack_nil (T : TransMap) (fuel : Nat) (c : List String) :
    closureLoop T fuel c [] = c := by
  cases fuel <;> rfl

theorem closureLoop_zero (T : TransMap) (c : List String) (s : String)
    (rest : List String) : closureLoop T 0 c (s :: rest) = c := rfl

theorem closureLoop_succ (T : TransMap) (f : Nat) (c : List String) (s : String)
    (rest : List String) :
    closureLoop T (f + 1) c (s :: rest) =
      closureLoop T f (addNew c rest (epsDests T s)).1
        (addNew c rest (epsDests T s)).2 := rfl

theorem closureLoop_superset (T : TransMap) : ∀ (fuel : Nat) (c st : List String),
    ∀ x ∈ c, x ∈ closureLoop T fuel c st := by
  intro fuel
  induction fuel with
  | zero =>
    intro c st x hx
    cases st with
    | nil => rw [closureLoop_stack_nil]; exact hx
    | cons s rest => rw [closureLoop_zero]; exact hx
  | succ f ih =>
    intro c st x hx
    cases st with
    | nil => rw [closureLoop_stack_nil]; exact hx
    | cons s rest =>
      rw [closureLoop_succ]
      exact ih _ _ x (mem_addNew_fst_of_mem hx)

theorem closureLoop_minimal (T : TransMap) (U : Set String)
    (hU : ∀ u ∈ U, ∀ d ∈ epsDests T u, d ∈ U) :
    ∀ (fuel : Nat) (c st : List String), (∀ x ∈ c, x ∈ U) → (∀ x ∈ st, x ∈ U) →
    ∀ x ∈ closureLoop T fuel c st, x ∈ U := by
  intro fuel
  induction fuel with
  | zero =>
    intro c st hc hst x hx
    cases st with
    | nil => rw [closureLoop_stack_nil] at hx; exact hc x hx
    | cons s rest => rw [closureLoop_zero] at hx; exact hc x hx
  | succ f ih =>
    intro c st hc hst x hx
    cases st with
    | nil => rw [closureLoop_stack_nil] at hx; exact hc x hx
    | cons s rest =>
      rw [closureLoop_succ] at hx
      have hsU : s ∈ U := hst s (List.mem_cons.mpr (Or.inl rfl))
      refine ih _ _ ?_ ?_ x hx
      · intro y hy
        rcases (mem_addNew_fst (epsDests T s) c rest y).mp hy with hy | hy
        · exact hc y hy
        · exact hU s hsU y hy
      · intro y hy
        rcases mem_addNew_snd (epsDests T s) c rest y hy with hy | hy
        · exact hst y (List.mem_cons_of_mem _ hy)
        · exact hU s hsU y hy

theorem closureLoop_nodup (T : TransMap) : ∀ (fuel : Nat) (c st : List String),
    c.Nodup → (closureLoop T fuel c st).Nodup := by
  intro fuel
  induction fuel with
  | zero =>
    intro c st hc
    cases st with
    | nil => rw [closureLoop_stack_nil]; exact hc
    | cons s rest => rw [closureLoop_zero]; exact hc
  | succ f ih =>
    intro c st hc
    cases st with
    | nil => rw [closureLoop_stack_nil]; exact hc
    | cons s rest =>
      rw [closureLoop_succ]
      exact ih _ _ (addNew_nodup (epsDests T s) c rest hc)

theorem closureLoop_closed (T : TransMap) : ∀ (fuel : Nat) (c st : List String),
    2 * closurePot T c + st.length ≤ fuel →
    (∀ x ∈ c, ¬ x ∈ st → ∀ d ∈ epsDests T x, d ∈ c) →
    ∀ x ∈ closureLoop T fuel c st, ∀ d ∈ epsDests T x,
      d ∈ closureLoop T fuel c st := by
  intro fuel
  induction fuel with
  | zero =>
    intro c st hfuel hinv x hx d hd
    have hst : st = [] := List.length_eq_zero.mp (by omega)
    subst hst
    rw [closureLoop_stack_nil] at hx ⊢
    exact hinv x hx (by simp) d hd
  | succ f ih =>
    intro c st hfuel hinv x hx d hd
    cases st with
    | nil =>
      rw [closureLoop_stack_nil] at hx ⊢
      exact hinv x hx (by simp) d hd
    | cons s rest =>
      rw [closureLoop_succ] at hx ⊢
      have hmeas := addNew_measure T (epsDests T s) (epsDests_subset_epsUniv T s) c rest
      simp only [List.length_cons] at hfuel
      refine ih _ _ (by omega) ?_ x hx d hd
      intro y hy hyst e he
      by_cases hyc : y ∈ c
      · by_cases hys : y = s
        · subst hys
          exact (mem_addNew_fst (epsDests T y) c rest e).mpr (Or.inr he)
        · have hyr : ¬ y ∈ s :: rest := by
            intro hmem
            rcases List.mem_cons.mp hmem with hmem | hmem
            · exact hys hmem
            · exact hyst (mem_addNew_snd_of_mem (epsDests T s) c rest y hmem)
          exact mem_addNew_fst_of_mem (hinv y hyc hyr e he)
      · exact absurd (addNew_new_mem_snd (epsDests T s) c rest y hy hyc) hyst

theorem mem_epsilonClosure_of_mem {states : List String} (T : TransMap) :
    ∀ x ∈ states, x ∈ epsilonClosure states T := by
  intro x hx
  rw [epsilonClosure]
  exact closureLoop_superset T _ _ _ x (mem_jsSetOfList.mpr hx)

theorem epsilonClosure_closed (states : List String) (T : TransMap) :
    ∀ x ∈ epsilonClosure states T, ∀ d ∈ epsDests T x,
      d ∈ epsilonClosure states T := by
  rw [epsilonClosure]
  apply closureLoop_closed
  · have h1 : closurePot T (jsSetOfList states) ≤ (epsUniv T).length := by
      rw [closurePot]
      exact List.length_filter_le _ _
    rw [closureFuel, List.length_reverse]
    omega
  · intro x hx hxst
    exact absurd (List.mem_reverse.mpr (mem_jsSetOfList.mp hx)) hxst

theorem epsilonClosure_minimal (states : List String) (T : TransMap)
    (U : Set String) (hS : ∀ x ∈ states, x ∈ U)
    (hU : ∀ u ∈ U, ∀ d ∈ epsDests T u, d ∈ U) :
    ∀ x ∈ epsilonClosure states T, x ∈ U := by
  rw [epsilonClosure]
  apply closureLoop_minimal T U hU
  · intro x hx
    exact hS x (mem_jsSetOfList.mp hx)
  · intro x hx
    exact hS x (List.mem_reverse.mp hx)

theorem epsilonClosure_nodup (states : List String) (T : TransMap) :
    (epsilonClosure states T).Nodup := by
  rw [epsilonClosure]
  exact closureLoop_nodup T _ _ _ (jsSetOfList_nodup states)

theorem epsilonClosure_subset_univ (states : List String) (T : TransMap) :
    ∀ x ∈ epsilonClosure states T, x ∈ states ∨ x ∈ epsUniv T := by
  apply epsilonClosure_minimal states T
    (fun x => x ∈ states ∨ x ∈ epsUniv T : Set String)
  · exact fun x hx => Or.inl hx
  · intro u _ d hd
    exact Or.inr (epsDests_subset_epsUniv T u d hd)

theorem epsilonClosure_ne_nil {states : List String} (T : TransMap)
    (h : ¬ states = []) : ¬ epsilonClosure states T = [] := by
  cases states with
  | nil => exact absurd rfl h
  | cons a l =>
    exact List.ne_nil_of_mem
      (mem_epsilonClosure_of_mem T a (List.mem_cons.mpr (Or.inl rfl)))

theorem epsilonClosure_nil (T : TransMap) : epsilonClosure [] T = [] := rfl


/-- C2: For every set of NFA state identifiers S (given as the input list)
and every transition mapping T, `epsilonClosure S T`, viewed as a set, is
the smallest set containing S that is closed under epsilon transitions:
it contains every input state; every destination listed under the
empty-symbol key for a member is a member; it is contained in every
epsilon-closed superset of S; and a state with no entry in T contributes
no epsilon destinations. -/
theorem epsilonClosure_smallest_closed (S : List String) (T : TransMap) :
    (∀ s ∈ S, s ∈ epsilonClosure S T) ∧
    (∀ s ∈ epsilonClosure S T, ∀ d ∈ epsDests T s, d ∈ epsilonClosure S T) ∧
    (∀ U : Set String, (∀ s ∈ S, s ∈ U) →
      (∀ u ∈ U, ∀ d ∈ epsDests T u, d ∈ U) →
      ∀ x ∈ epsilonClosure S T, x ∈ U) ∧
    (∀ s : String, T.lookup s = none → epsDests T s = []) := by
  refine ⟨mem_epsilonClosure_of_mem T, epsilonClosure_closed S T,
    epsilonClosure_minimal S T, ?_⟩
  intro s h
  rw [epsDests, lookup2, h]

theorem epsilonClosure_smallest_closed_witness :
    "q1" ∈ epsilonClosure ["q0"] epsExampleT ∧
    "q1" ∈ (Set.univ : Set String) :=
  ⟨(epsilonClosure_smallest_closed ["q0"] epsExampleT).2.1 "q0" (by decide)
      "q1" (by decide),
    (epsilonClosure_smallest_closed ["q0"] epsExampleT).2.2.1 Set.univ
      (fun _ _ => trivial) (fun _ _ _ _ => trivial) "q1" (by decide)⟩

/-- C9: `epsilonClosure` is idempotent: applying it to its own result
returns the same set of states. -/
theorem epsilonClosure_idem (S : List String) (T : TransMap) :
    ∀ x, x ∈ epsilonClosure (epsilonClosure S T) T ↔ x ∈ epsilonClosure S T := by
  intro x
  constructor
  · intro hx
    exact epsilonClosure_minimal _ T
      (fun y => y ∈ epsilonClosure S T : Set String)
      (fun y hy => hy) (epsilonClosure_closed S T) x hx
  · intro hx
    exact mem_epsilonClosure_of_mem T x hx

/-- C10: `epsilonClosure` applied to the empty list returns the empty
list for every transition mapping, and consequently a symbol whose union
of member destinations is empty makes `procSymbol` record nothing (the
no-transition branch of `convertNFAtoDFA`). -/
theorem epsilonClosure_empty_total (T : TransMap) :
    epsilonClosure [] T = [] ∧
    (∀ (cs : List String) (sym : String)
      (acc : List (String × List String) × List String × List (String × String)),
      symUnion T cs sym = [] → procSymbol T cs acc sym = acc) := by
  refine ⟨rfl, ?_⟩
  intro cs sym acc h
  have hn : symNext T cs sym = [] := by
    rw [symNext, h]
    rfl
  rw [procSymbol, hn]
  simp

theorem epsilonClosure_empty_total_witness :
    symUnion gapNFA.transitions ["q1"] "a" = [] ∧
    procSymbol gapNFA.transitions ["q1"] ([], [], []) "a" = ([], [], []) :=
  ⟨by decide,
    (epsilonClosure_empty_total gapNFA.transitions).2 ["q1"] "a" ([], [], [])
      (by decide)⟩


/-- C1: on the three-state example NFA (states q0,q1,q2; alphabet a,b;
transitions q0-a->[q0,q1], q0-b->[q0], q1-a->[q2]; start q0; accept q2),
`convertNFAtoDFA` returns exactly the DFA of the specification scenario:
start key "(q0)", discovered keys "(q0)", "(q0,q1)", "(q0,q1,q2)" (in
brace notation), the six listed transitions, and exactly the accept key
"(q0,q1,q2)". -/
theorem convert_example_scenario : convertNFAtoDFA exampleNFA = exampleDFA := by
  decide

/-- C5: for every input NFA the DFA start state is the canonical key of
the epsilon-closure of the singleton set holding the NFA start state;
that key and its underlying state set are recorded as the only discovered
DFA state, and enqueued, before the worklist loop begins. -/
theorem start_state_key (nfa : NFA) :
    (convertNFAtoDFA nfa).startState =
      stateSetToString (epsilonClosure [nfa.startState] nfa.transitions) ∧
    (convInit nfa).dfaStates =
      [(stateSetToString (epsilonClosure [nfa.startState] nfa.transitions),
        epsilonClosure [nfa.startState] nfa.transitions)] ∧
    (convInit nfa).dfaQueue =
      [stateSetToString (epsilonClosure [nfa.startState] nfa.transitions)] ∧
    convRun nfa = convLoop nfa (convFuel nfa) (convInit nfa) :=
  ⟨rfl, rfl, rfl, rfl⟩


theorem symNext_nodup (T : TransMap) (cs : List String) (sym : String) :
    (symNext T cs sym).Nodup := epsilonClosure_nodup _ _

theorem symNext_subset_stateUniv {nfa : NFA} (cs : List String) (sym : String) :
    ∀ x ∈ symNext nfa.transitions cs sym, x ∈ stateUniv nfa := by
  intro x hx
  rcases epsilonClosure_subset_univ _ _ x hx with h | h
  · rw [symUnion] at h
    obtain ⟨s, _, hx2⟩ := List.mem_flatMap.mp h
    exact lookup2_subset_stateUniv s sym x hx2
  · exact epsUniv_subset_stateUniv nfa x h

theorem lookup_map_replace {α : Type} (k : String) (v : α) :
    ∀ m : List (String × α), k ∈ m.map Prod.fst →
    (m.map (fun p => if p.1 = k then (k, v) else p)).lookup k = some v := by
  intro m
  induction m with
  | nil => intro h; simp at h
  | cons p l ih =>
    intro hk
    obtain ⟨a, b⟩ := p
    simp only [List.map_cons, List.mem_cons] at hk ⊢
    by_cases hak : a = k
    · rw [if_pos hak]
      simp [List.lookup]
    · rw [if_neg hak]
      have hka : ¬ k = a := fun h => hak h.symm
      have hb : (k == a) = false := by simpa using hka
      simp only [List.lookup, hb]
      apply ih
      rcases hk with h | h
      · exact absurd h.symm hak
      · exact h

theorem lookup_map_replace_other {α : Type} (k x : String) (hxk : ¬ x = k) (v : α) :
    ∀ m : List (String × α),
    (m.map (fun p => if p.1 = k then (k, v) else p)).lookup x = m.lookup x := by
  intro m
  induction m with
  | nil => rfl
  | cons p l ih =>
    obtain ⟨a, b⟩ := p
    simp only [List.map_cons]
    by_cases hak : a = k
    · rw [if_pos hak]
      have hb : (x == k) = false := by simpa using hxk
      subst hak
      simp only [List.lookup, hb]
      exact ih
    · rw [if_neg hak]
      simp only [List.lookup]
      cases hxa : x == a with
      | true => rfl
      | false => exact ih

theorem objAssign_of_none {α : Type} {m : List (String × α)} {k : String}
    (h : m.lookup k = none) (v : α) : objAssign m k v = m ++ [(k, v)] := by
  rw [objAssign, if_neg]
  rw [h]
  simp

theorem lookup_objAssign_self {α : Type} (m : List (String × α)) (k : String)
    (v : α) : (objAssign m k v).lookup k = some v := by
  rw [objAssign]
  by_cases h : (m.lookup k).isSome = true
  · rw [if_pos h]
    exact lookup_map_replace k v m ((lookup_isSome_iff m k).mp h)
  · rw [if_neg h]
    have hn : m.lookup k = none := by
      cases hm : m.lookup k with
      | none => rfl
      | some w => rw [hm] at h; simp at h
    rw [lookup_append_none _ hn]
    simp [List.lookup]

theorem lookup_objAssign_other {α : Type} (m : List (String × α)) (k : String)
    (v : α) {x : String} (hxk : ¬ x = k) :
    (objAssign m k v).lookup x = m.lookup x := by
  rw [objAssign]
  by_cases h : (m.lookup k).isSome = true
  · rw [if_pos h]
    exact lookup_map_replace_other k x hxk v m
  · rw [if_neg h]
    cases hm : m.lookup x with
    | some w => exact lookup_append_some _ hm
    | none =>
      rw [lookup_append_none _ hm]
      have hb : (x == k) = false := by simpa using hxk
      simp [List.lookup, hb]

theorem entryConsistent_objAssign {T : TransMap} {cs : List String}
    {e : List (String × String)} (hc : EntryConsistent T cs e) (sym : String) :
    EntryConsistent T cs
      (objAssign e sym (stateSetToString (symNext T cs sym))) := by
  intro x v h
  by_cases hx : x = sym
  · subst hx
    rw [lookup_objAssign_self] at h
    simp only [Option.some.injEq] at h
    exact h.symm
  · rw [lookup_objAssign_other _ _ _ hx] at h
    exact hc x v h

theorem key_mem_validKeys {nfa : NFA} {l : List String} (hne : ¬ l = [])
    (hnd : l.Nodup) (hsub : ∀ x ∈ l, x ∈ stateUniv nfa) :
    stateSetToString l ∈ validKeys nfa := by
  have huniv_nodup : (stateUniv nfa).Nodup := jsSetOfList_nodup _
  have hBsub : ((stateUniv nfa).filter (fun x => decide (x ∈ l))).Sublist
      (stateUniv nfa) := List.filter_sublist _
  have hBnodup : ((stateUniv nfa).filter (fun x => decide (x ∈ l))).Nodup :=
    hBsub.nodup huniv_nodup
  have hBmem : ∀ x, x ∈ (stateUniv nfa).filter (fun x => decide (x ∈ l)) ↔ x ∈ l := by
    intro x
    rw [List.mem_filter]
    constructor
    · intro ⟨_, h⟩
      simpa using h
    · intro h
      exact ⟨hsub x h, by simpa using h⟩
  have hBne : ¬ (stateUniv nfa).filter (fun x => decide (x ∈ l)) = [] := by
    obtain ⟨a, ha⟩ := List.exists_mem_of_ne_nil l hne
    exact List.ne_nil_of_mem ((hBmem a).mpr ha)
  have hkey : stateSetToString l =
      stateSetToString ((stateUniv nfa).filter (fun x => decide (x ∈ l))) :=
    stateSetToString_eq_of_mem_iff hnd hBnodup (fun x => ((hBmem x).symm))
  rw [validKeys, hkey]
  apply List.mem_map.mpr
  refine ⟨_, List.mem_filter.mpr ⟨List.mem_sublists.mpr hBsub, ?_⟩, rfl⟩
  cases hB : (stateUniv nfa).filter (fun x => decide (x ∈ l)) with
  | nil => exact absurd hB hBne
  | cons a t => simp

theorem convPot_append {nfa : NFA} {m : List (String × List String)} {k : String}
    (hk : k ∈ validKeys nfa) (hnone : m.lookup k = none) (v : List String) :
    convPot nfa (m ++ [(k, v)]) + 1 ≤ convPot nfa m := by
  rw [convPot, convPot]
  apply length_filter_succ_le _ _ _ ?_ k hk
  · rw [hnone]; rfl
  · rw [lookup_append_none _ hnone]
    simp [List.lookup]
  · intro x _ hx
    simp only [Option.isNone_iff_eq_none] at hx ⊢
    exact lookup_none_of_append_none hx


theorem procSymbol_eq_skip {T : TransMap} {cs : List String}
    {acc : List (String × List String) × List String × List (String × String)}
    {sym : String} (hpos : ¬ 0 < (symNext T cs sym).length) :
    procSymbol T cs acc sym = acc := by
  simp [procSymbol, hpos]

theorem procSymbol_eq_seen {T : TransMap} {cs : List String}
    {m : List (String × List String)} {q : List String}
    {e : List (String × String)} {sym : String}
    (hpos : 0 < (symNext T cs sym).length)
    (hseen : (m.lookup (stateSetToString (symNext T cs sym))).isSome = true) :
    procSymbol T cs (m, q, e) sym =
      (m, q, objAssign e sym (stateSetToString (symNext T cs sym))) := by
  simp [procSymbol, hpos, hseen]

theorem procSymbol_eq_fresh {T : TransMap} {cs : List String}
    {m : List (String × List String)} {q : List String}
    {e : List (String × String)} {sym : String}
    (hpos : 0 < (symNext T cs sym).length)
    (hseen : ¬ (m.lookup (stateSetToString (symNext T cs sym))).isSome = true) :
    procSymbol T cs (m, q, e) sym =
      (m ++ [(stateSetToString (symNext T cs sym), symNext T cs sym)],
        q ++ [stateSetToString (symNext T cs sym)],
        objAssign e sym (stateSetToString (symNext T cs sym))) := by
  simp [procSymbol, hpos, hseen]

theorem procSymbol_foldl_lookup_empty (T : TransMap) (cs : List String) :
    ∀ (syms : List String) (m : List (String × List String)) (q : List String)
      (e : List (String × String)) (sym : String),
      symNext T cs sym = [] →
      (List.foldl (procSymbol T cs) (m, q, e) syms).2.2.lookup sym =
        e.lookup sym := by
  intro syms
  induction syms with
  | nil => intro m q e sym _; rfl
  | cons sym' syms ih =>
    intro m q e sym h
    rw [List.foldl_cons]
    by_cases hpos : 0 < (symNext T cs sym').length
    · have hne : ¬ sym = sym' := by
        intro heq
        subst heq
        rw [h] at hpos
        simp at hpos
      by_cases hseen :
          (m.lookup (stateSetToString (symNext T cs sym'))).isSome = true
      · rw [procSymbol_eq_seen hpos hseen, ih _ _ _ sym h]
        exact lookup_objAssign_other _ _ _ hne
      · rw [procSymbol_eq_fresh hpos hseen, ih _ _ _ sym h]
        exact lookup_objAssign_other _ _ _ hne
    · rw [procSymbol_eq_skip hpos]
      exact ih _ _ _ sym h

theorem procSymbol_foldl_nodup (T : TransMap) (cs : List String) :
    ∀ (syms : List String) (m : List (String × List String)) (q : List String)
      (e : List (String × String)), (m.map Prod.fst).Nodup →
      ((List.foldl (procSymbol T cs) (m, q, e) syms).1.map Prod.fst).Nodup := by
  intro syms
  induction syms with
  | nil => intro m q e h; exact h
  | cons sym syms ih =>
    intro m q e h
    rw [List.foldl_cons]
    by_cases hpos : 0 < (symNext T cs sym).length
    · by_cases hseen :
          (m.lookup (stateSetToString (symNext T cs sym))).isSome = true
      · rw [procSymbol_eq_seen hpos hseen]
        exact ih _ _ _ h
      · rw [procSymbol_eq_fresh hpos hseen]
        apply ih
        rw [List.map_append]
        rw [List.nodup_append]
        refine ⟨h, by simp, ?_⟩
        intro x hx hx2
        simp only [List.map_cons, List.map_nil, List.mem_singleton] at hx2
        subst hx2
        exact hseen ((lookup_isSome_iff m _).mpr hx)
    · rw [procSymbol_eq_skip hpos]
      exact ih _ _ _ h

theorem procSymbol_foldl_measure (nfa : NFA) (cs : List String) :
    ∀ (syms : List String) (m : List (String × List String)) (q : List String)
      (e : List (String × String)),
      2 * convPot nfa
          (List.foldl (procSymbol nfa.transitions cs) (m, q, e) syms).1 +
        (List.foldl (procSymbol nfa.transitions cs) (m, q, e) syms).2.1.length ≤
      2 * convPot nfa m + q.length := by
  intro syms
  induction syms with
  | nil => intro m q e; exact le_refl _
  | cons sym syms ih =>
    intro m q e
    rw [List.foldl_cons]
    by_cases hpos : 0 < (symNext nfa.transitions cs sym).length
    · by_cases hseen :
          (m.lookup (stateSetToString (symNext nfa.transitions cs sym))).isSome
            = true
      · rw [procSymbol_eq_seen hpos hseen]
        exact ih _ _ _
      · rw [procSymbol_eq_fresh hpos hseen]
        have h1 := ih (m ++ [(stateSetToString (symNext nfa.transitions cs sym),
          symNext nfa.transitions cs sym)])
          (q ++ [stateSetToString (symNext nfa.transitions cs sym)])
          (objAssign e sym (stateSetToString (symNext nfa.transitions cs sym)))
        have hkey : stateSetToString (symNext nfa.transitions cs sym) ∈
            validKeys nfa :=
          key_mem_validKeys (by
              intro hh
              rw [hh] at hpos
              simp at hpos)
            (symNext_nodup _ _ _) (symNext_subset_stateUniv cs sym)
        have hnone : m.lookup (stateSetToString (symNext nfa.transitions cs sym))
            = none := by
          cases hm : m.lookup (stateSetToString (symNext nfa.transitions cs sym)) with
          | none => rfl
          | some w => rw [hm] at hseen; simp at hseen
        have h2 := convPot_append hkey hnone (symNext nfa.transitions cs sym)
        rw [List.length_append] at h1
        simp only [List.length_singleton] at h1
        omega
    · rw [procSymbol_eq_skip hpos]
      exact ih _ _ _


theorem procSymbol_foldl_spec (T : TransMap) (cs : List String) :
    ∀ (syms : List String) (m : List (String × List String)) (q : List String)
      (e : List (String × String)), EntryConsistent T cs e →
    ∃ Δ e',
      List.foldl (procSymbol T cs) (m, q, e) syms =
        (m ++ Δ, q ++ Δ.map Prod.fst, e') ∧
      EntryConsistent T cs e' ∧
      (∀ x v, e.lookup x = some v → e'.lookup x = some v) ∧
      (∀ p ∈ Δ, p.1 = stateSetToString p.2 ∧
        (∃ sym ∈ syms, p.2 = symNext T cs sym) ∧
        ¬ p.2 = [] ∧ m.lookup p.1 = none ∧
        ∃ x, e'.lookup x = some p.1) := by
  intro syms
  induction syms with
  | nil =>
    intro m q e hcons
    exact ⟨[], e, by simp, hcons, fun x v h => h, by simp⟩
  | cons sym syms ih =>
    intro m q e hcons
    rw [List.foldl_cons]
    by_cases hpos : 0 < (symNext T cs sym).length
    · have hcons' := entryConsistent_objAssign hcons sym
      by_cases hseen :
          (m.lookup (stateSetToString (symNext T cs sym))).isSome = true
      · rw [procSymbol_eq_seen hpos hseen]
        obtain ⟨Δ, e', heq, hc', hmono, hΔ⟩ := ih m q _ hcons'
        refine ⟨Δ, e', heq, hc', ?_, ?_⟩
        · intro x v h
          by_cases hx : x = sym
          · subst hx
            have hv : v = stateSetToString (symNext T cs x) := hcons x v h
            subst hv
            exact hmono x _ (lookup_objAssign_self e x _)
          · exact hmono x v ((lookup_objAssign_other e sym _ hx).symm ▸ h)
        · intro p hp
          obtain ⟨h1, ⟨s, hs, h2⟩, h3, h4, h5⟩ := hΔ p hp
          exact ⟨h1, ⟨s, List.mem_cons_of_mem _ hs, h2⟩, h3, h4, h5⟩
      · rw [procSymbol_eq_fresh hpos hseen]
        obtain ⟨Δ, e', heq, hc', hmono, hΔ⟩ := ih _ _ _ hcons'
        have hnone : m.lookup (stateSetToString (symNext T cs sym)) = none := by
          cases hm : m.lookup (stateSetToString (symNext T cs sym)) with
          | none => rfl
          | some w => rw [hm] at hseen; simp at hseen
        refine ⟨(stateSetToString (symNext T cs sym), symNext T cs sym) :: Δ,
          e', ?_, hc', ?_, ?_⟩
        · rw [heq]
          simp
        · intro x v h
          by_cases hx : x = sym
          · subst hx
            have hv : v = stateSetToString (symNext T cs x) := hcons x v h
            subst hv
            exact hmono x _ (lookup_objAssign_self e x _)
          · exact hmono x v ((lookup_objAssign_other e sym _ hx).symm ▸ h)
        · intro p hp
          rcases List.mem_cons.mp hp with hp | hp
          · subst hp
            refine ⟨rfl, ⟨sym, List.mem_cons.mpr (Or.inl rfl), rfl⟩, ?_, hnone, ?_⟩
            · intro hh
              have hh' : symNext T cs sym = [] := hh
              rw [hh'] at hpos
              simp at hpos
            · exact ⟨sym, hmono sym _ (lookup_objAssign_self e sym _)⟩
          · obtain ⟨h1, ⟨s, hs, h2⟩, h3, h4, h5⟩ := hΔ p hp
            exact ⟨h1, ⟨s, List.mem_cons_of_mem _ hs, h2⟩, h3,
              lookup_none_of_append_none h4, h5⟩
    · rw [procSymbol_eq_skip hpos]
      obtain ⟨Δ, e', heq, hc', hmono, hΔ⟩ := ih m q e hcons
      refine ⟨Δ, e', heq, hc', hmono, ?_⟩
      intro p hp
      obtain ⟨h1, ⟨s, hs, h2⟩, h3, h4, h5⟩ := hΔ p hp
      exact ⟨h1, ⟨s, List.mem_cons_of_mem _ hs, h2⟩, h3, h4, h5⟩


theorem convLoop_queue_nil {nfa : NFA} {fuel : Nat} {st : Conv}
    (h : st.dfaQueue = []) : convLoop nfa fuel st = st := by
  obtain ⟨m, t, a, q⟩ := st
  change q = [] at h
  subst h
  cases fuel <;> rfl

theorem convLoop_cons_zero {nfa : NFA} {st : Conv} {ck : String}
    {rest : List String} (h : st.dfaQueue = ck :: rest) :
    convLoop nfa 0 st = st := by
  obtain ⟨m, t, a, q⟩ := st
  change q = ck :: rest at h
  subst h
  rfl

theorem convLoop_cons_succ {nfa : NFA} {f : Nat} {st : Conv} {ck : String}
    {rest : List String} (h : st.dfaQueue = ck :: rest) :
    convLoop nfa (f + 1) st = convLoop nfa f (convStep nfa st ck rest) := by
  obtain ⟨m, t, a, q⟩ := st
  change q = ck :: rest at h
  subst h
  rfl

theorem convStep_eq {nfa : NFA} {st : Conv} {ck : String} {rest : List String}
    {cs : List String} (hcs : st.dfaStates.lookup ck = some cs) :
    convStep nfa st ck rest =
      ⟨(nfa.alphabet.foldl (procSymbol nfa.transitions cs)
          (st.dfaStates, rest, [])).1,
        objAssign st.dfaTransitions ck
          (nfa.alphabet.foldl (procSymbol nfa.transitions cs)
            (st.dfaStates, rest, [])).2.2,
        if cs.any (fun state => decide (state ∈ nfa.acceptStates)) then
          jsSetAdd st.dfaAcceptStates ck
        else st.dfaAcceptStates,
        (nfa.alphabet.foldl (procSymbol nfa.transitions cs)
          (st.dfaStates, rest, [])).2.1⟩ := by
  simp only [convStep, hcs, Option.getD_some]

theorem convStep_good {nfa : NFA} {st : Conv} {ck : String} {rest : List String}
    (hg : GoodConv nfa st) (hq : st.dfaQueue = ck :: rest) :
    GoodConv nfa (convStep nfa st ck rest) := by
  have hckq : ck ∈ st.dfaQueue := by
    rw [hq]
    exact List.mem_cons.mpr (Or.inl rfl)
  obtain ⟨cs, hcs⟩ := Option.isSome_iff_exists.mp (hg.queueInMap ck hckq)
  have hcs_mem : (ck, cs) ∈ st.dfaStates := lookup_mem hcs
  obtain ⟨Δ, e', heq, hcons', hmono, hΔ⟩ :=
    procSymbol_foldl_spec nfa.transitions cs nfa.alphabet st.dfaStates rest []
      (fun x v h => by simp [List.lookup] at h)
  have htrck : st.dfaTransitions.lookup ck = none := hg.queueNotInTrans ck hckq
  have hassign : objAssign st.dfaTransitions ck e' =
      st.dfaTransitions ++ [(ck, e')] := objAssign_of_none htrck e'
  have hstep : convStep nfa st ck rest =
      ⟨st.dfaStates ++ Δ,
        st.dfaTransitions ++ [(ck, e')],
        if cs.any (fun state => decide (state ∈ nfa.acceptStates)) then
          jsSetAdd st.dfaAcceptStates ck
        else st.dfaAcceptStates,
        rest ++ Δ.map Prod.fst⟩ := by
    rw [convStep_eq hcs, heq]
    dsimp only
    rw [hassign]
  have hqnd : (ck :: rest).Nodup := by
    rw [← hq]
    exact hg.queueNodup
  have hckrest : ¬ ck ∈ rest := (List.nodup_cons.mp hqnd).1
  have hrestnd : rest.Nodup := (List.nodup_cons.mp hqnd).2
  have hnodup' : ((st.dfaStates ++ Δ).map Prod.fst).Nodup := by
    have h := procSymbol_foldl_nodup nfa.transitions cs nfa.alphabet
      st.dfaStates rest [] hg.mapKeysNodup
    rw [heq] at h
    exact h
  have hfreshΔ : ∀ p ∈ Δ, st.dfaStates.lookup p.1 = none :=
    fun p hp => (hΔ p hp).2.2.2.1
  have hΔkeys_not_m : ∀ k ∈ Δ.map Prod.fst, ¬ k ∈ st.dfaStates.map Prod.fst := by
    intro k hk
    obtain ⟨p, hp, rfl⟩ := List.mem_map.mp hk
    exact (lookup_eq_none_iff _ _).mp (hfreshΔ p hp)
  have hckm : ck ∈ st.dfaStates.map Prod.fst :=
    (lookup_isSome_iff _ _).mp (by rw [hcs]; rfl)
  have hq'ck : ∀ k ∈ rest ++ Δ.map Prod.fst, ¬ k = ck := by
    intro k hk heq2
    subst heq2
    rcases List.mem_append.mp hk with hk | hk
    · exact hckrest hk
    · exact hΔkeys_not_m k hk hckm
  have hacc_sub : ∀ k,
      k ∈ (if cs.any (fun state => decide (state ∈ nfa.acceptStates)) then
        jsSetAdd st.dfaAcceptStates ck else st.dfaAcceptStates) →
      k ∈ st.dfaAcceptStates ∨ k = ck := by
    intro k hk
    by_cases hb : cs.any (fun state => decide (state ∈ nfa.acceptStates)) = true
    · rw [if_pos hb] at hk
      exact mem_jsSetAdd.mp hk
    · rw [if_neg hb] at hk
      exact Or.inl hk
  have huniq : ∀ p ∈ st.dfaStates, p.1 = ck → p.2 = cs := by
    intro p hp hpk
    have hmem2 : (ck, p.2) ∈ st.dfaStates := by
      rw [← hpk]
      rw [Prod.mk.eta]
      exact hp
    have h1 : st.dfaStates.lookup ck = some p.2 :=
      lookup_of_mem_nodup hg.mapKeysNodup hmem2
    rw [hcs] at h1
    simp only [Option.some.injEq] at h1
    exact h1.symm
  have hstepmono : ∀ a b, dfaStep st.dfaTransitions a b →
      dfaStep (st.dfaTransitions ++ [(ck, e')]) a b := by
    rintro a b ⟨e, he, sym, hsym⟩
    exact ⟨e, lookup_append_some _ he, sym, hsym⟩
  have hcktr' : (st.dfaTransitions ++ [(ck, e')]).lookup ck = some e' := by
    rw [lookup_append_none _ htrck]
    simp [List.lookup]
  rw [hstep]
  refine ⟨?_, ?_, ?_, ?_, ?_, ?_, ?_, ?_, ?_, ?_⟩
  · exact hnodup'
  · rw [List.nodup_append]
    refine ⟨hrestnd, ?_, ?_⟩
    · have h := hnodup'
      rw [List.map_append, List.nodup_append] at h
      exact h.2.1
    · intro k hk1 hk2
      exact hΔkeys_not_m k hk2 ((lookup_isSome_iff _ _).mp
        (hg.queueInMap k (by rw [hq]; exact List.mem_cons_of_mem _ hk1)))
  · intro k hk
    rcases List.mem_append.mp hk with hk | hk
    · obtain ⟨v, hv⟩ := Option.isSome_iff_exists.mp
        (hg.queueInMap k (by rw [hq]; exact List.mem_cons_of_mem _ hk))
      rw [lookup_append_some Δ hv]
      rfl
    · exact (lookup_isSome_iff _ _).mpr
        (by rw [List.map_append]; exact List.mem_append.mpr (Or.inr hk))
  · intro k hk
    have hkck : ¬ k = ck := hq'ck k hk
    have hknone : st.dfaTransitions.lookup k = none := by
      rcases List.mem_append.mp hk with hk | hk
      · exact hg.queueNotInTrans k (by rw [hq]; exact List.mem_cons_of_mem _ hk)
      · rw [lookup_eq_none_iff]
        intro hmem
        obtain ⟨qq, hqq, hqk⟩ := List.mem_map.mp hmem
        obtain ⟨cs0, hcs0, _, _⟩ := hg.transGood qq hqq
        refine hΔkeys_not_m qq.1 (hqk ▸ hk) ((lookup_isSome_iff _ _).mp ?_)
        rw [hcs0]
        rfl
    rw [lookup_append_none _ hknone]
    have hb : (k == ck) = false := by simpa using hkck
    simp [List.lookup, hb]
  · intro k hk hmem
    rcases hacc_sub k hmem with h | h
    · rcases List.mem_append.mp hk with hk | hk
      · exact hg.queueNotAccept k
          (by rw [hq]; exact List.mem_cons_of_mem _ hk) h
      · exact hΔkeys_not_m k hk (hg.acceptInMap k h)
    · exact hq'ck k hk h
  · intro k hk
    rw [List.map_append]
    apply List.mem_append.mpr
    rcases hacc_sub k hk with h | h
    · exact Or.inl (hg.acceptInMap k h)
    · subst h
      exact Or.inl hckm
  · intro p hp
    rcases List.mem_append.mp hp with hp | hp
    · exact hg.entryGood p hp
    · obtain ⟨h1, ⟨sym, _, h2⟩, h3, _, _⟩ := hΔ p hp
      refine ⟨h1, ?_, h3, ?_⟩
      · rw [h2]
        exact symNext_nodup _ _ _
      · intro x hx
        rw [h2] at hx
        exact symNext_subset_stateUniv cs sym x hx
  · intro p hp hnq
    rcases List.mem_append.mp hp with hp | hp
    · by_cases hpk : p.1 = ck
      · have hp2 : p.2 = cs := huniq p hp hpk
        rw [hpk, hp2]
        by_cases hb : cs.any (fun state => decide (state ∈ nfa.acceptStates)) = true
        · rw [if_pos hb]
          constructor
          · intro _
            obtain ⟨x, hx, hdec⟩ := List.any_eq_true.mp hb
            exact ⟨x, hx, of_decide_eq_true hdec⟩
          · intro _
            exact mem_jsSetAdd.mpr (Or.inr rfl)
        · rw [if_neg hb]
          constructor
          · intro hmem
            exact absurd hmem (hg.queueNotAccept ck hckq)
          · rintro ⟨x, hx, hxa⟩
            exact absurd (List.any_eq_true.mpr ⟨x, hx, decide_eq_true hxa⟩) hb
      · have hnrest : ¬ p.1 ∈ rest := fun h =>
          hnq (List.mem_append.mpr (Or.inl h))
        have hnold : ¬ p.1 ∈ st.dfaQueue := by
          rw [hq]
          intro h
          rcases List.mem_cons.mp h with h | h
          · exact hpk h
          · exact hnrest h
        have hold := hg.acceptIff p hp hnold
        by_cases hb : cs.any (fun state => decide (state ∈ nfa.acceptStates)) = true
        · rw [if_pos hb, ← hold]
          constructor
          · intro h
            rcases mem_jsSetAdd.mp h with h | h
            · exact h
            · exact absurd h hpk
          · intro h
            exact mem_jsSetAdd.mpr (Or.inl h)
        · rw [if_neg hb]
          exact hold
    · exact absurd (List.mem_append.mpr (Or.inr (List.mem_map.mpr ⟨p, hp, rfl⟩))) hnq
  · intro p hp
    rcases List.mem_append.mp hp with hp | hp
    · exact Relation.ReflTransGen.mono hstepmono (hg.reach p hp)
    · obtain ⟨_, _, _, _, x, hx⟩ := hΔ p hp
      have hckreach := Relation.ReflTransGen.mono hstepmono
        (hg.reach (ck, cs) hcs_mem)
      exact hckreach.tail ⟨e', hcktr', x, hx⟩
  · intro qq hqq
    rcases List.mem_append.mp hqq with hqq | hqq
    · obtain ⟨cs0, hcs0, hv, he⟩ := hg.transGood qq hqq
      exact ⟨cs0, lookup_append_some _ hcs0, hv, he⟩
    · have hqq2 : qq = (ck, e') := by simpa using hqq
      subst hqq2
      refine ⟨cs, lookup_append_some _ hcs, hcons', ?_⟩
      intro sym hsym
      have h := procSymbol_foldl_lookup_empty nfa.transitions cs nfa.alphabet
        st.dfaStates rest [] sym hsym
      rw [heq] at h
      exact h


theorem convLoop_good {nfa : NFA} : ∀ (fuel : Nat) (st : Conv),
    GoodConv nfa st → GoodConv nfa (convLoop nfa fuel st) := by
  intro fuel
  induction fuel with
  | zero =>
    intro st hg
    cases hql : st.dfaQueue with
    | nil => rw [convLoop_queue_nil hql]; exact hg
    | cons ck rest => rw [convLoop_cons_zero hql]; exact hg
  | succ f ih =>
    intro st hg
    cases hql : st.dfaQueue with
    | nil => rw [convLoop_queue_nil hql]; exact hg
    | cons ck rest =>
      rw [convLoop_cons_succ hql]
      exact ih _ (convStep_good hg hql)

theorem convStep_measure {nfa : NFA} {st : Conv} {ck : String}
    {rest : List String} (hg : GoodConv nfa st) (hq : st.dfaQueue = ck :: rest) :
    2 * convPot nfa (convStep nfa st ck rest).dfaStates +
      (convStep nfa st ck rest).dfaQueue.length + 1 ≤
    2 * convPot nfa st.dfaStates + st.dfaQueue.length := by
  have hckq : ck ∈ st.dfaQueue := by
    rw [hq]
    exact List.mem_cons.mpr (Or.inl rfl)
  obtain ⟨cs, hcs⟩ := Option.isSome_iff_exists.mp (hg.queueInMap ck hckq)
  rw [convStep_eq hcs]
  dsimp only
  have h := procSymbol_foldl_measure nfa cs nfa.alphabet st.dfaStates rest []
  rw [hq]
  simp only [List.length_cons]
  omega

theorem convLoop_drains {nfa : NFA} : ∀ (fuel : Nat) (st : Conv),
    GoodConv nfa st →
    2 * convPot nfa st.dfaStates + st.dfaQueue.length ≤ fuel →
    (convLoop nfa fuel st).dfaQueue = [] := by
  intro fuel
  induction fuel with
  | zero =>
    intro st _ hfuel
    have hq : st.dfaQueue = [] := List.length_eq_zero.mp (by omega)
    rw [convLoop_queue_nil hq]
    exact hq
  | succ f ih =>
    intro st hg hfuel
    cases hql : st.dfaQueue with
    | nil => rw [convLoop_queue_nil hql]; exact hql
    | cons ck rest =>
      rw [convLoop_cons_succ hql]
      apply ih _ (convStep_good hg hql)
      have h := convStep_measure hg hql
      rw [hql] at h hfuel
      omega

theorem convInit_good (nfa : NFA) : GoodConv nfa (convInit nfa) := by
  have hclo_ne : ¬ epsilonClosure [nfa.startState] nfa.transitions = [] :=
    epsilonClosure_ne_nil nfa.transitions (by simp)
  have hclo_sub : ∀ x ∈ epsilonClosure [nfa.startState] nfa.transitions,
      x ∈ stateUniv nfa := by
    intro x hx
    rcases epsilonClosure_subset_univ _ _ x hx with h | h
    · have : x = nfa.startState := by simpa using h
      subst this
      exact start_mem_stateUniv nfa
    · exact epsUniv_subset_stateUniv nfa x h
  refine ⟨?_, ?_, ?_, ?_, ?_, ?_, ?_, ?_, ?_, ?_⟩
  · simp [convInit]
  · simp [convInit]
  · intro k hk
    have hkk : k = stateSetToString (epsilonClosure [nfa.startState]
        nfa.transitions) := by simpa [convInit] using hk
    subst hkk
    simp [convInit, List.lookup]
  · intro k _
    rfl
  · intro k _ hmem
    simp [convInit] at hmem
  · intro k hk
    simp [convInit] at hk
  · intro p hp
    have hpp : p = (stateSetToString (epsilonClosure [nfa.startState]
        nfa.transitions), epsilonClosure [nfa.startState] nfa.transitions) := by
      simpa [convInit] using hp
    subst hpp
    exact ⟨rfl, epsilonClosure_nodup _ _, hclo_ne, hclo_sub⟩
  · intro p hp hnq
    have hpp : p = (stateSetToString (epsilonClosure [nfa.startState]
        nfa.transitions), epsilonClosure [nfa.startState] nfa.transitions) := by
      simpa [convInit] using hp
    subst hpp
    exact absurd (by simp [convInit]) hnq
  · intro p hp
    have hpp : p = (stateSetToString (epsilonClosure [nfa.startState]
        nfa.transitions), epsilonClosure [nfa.startState] nfa.transitions) := by
      simpa [convInit] using hp
    subst hpp
    exact Relation.ReflTransGen.refl
  · intro q hq
    simp [convInit] at hq

theorem convRun_good (nfa : NFA) : GoodConv nfa (convRun nfa) :=
  convLoop_good _ _ (convInit_good nfa)

theorem convRun_queue_nil (nfa : NFA) : (convRun nfa).dfaQueue = [] := by
  apply convLoop_drains _ _ (convInit_good nfa)
  have h1 : convPot nfa (convInit nfa).dfaStates ≤ (validKeys nfa).length := by
    rw [convPot]
    exact List.length_filter_le _ _
  have h2 : (convInit nfa).dfaQueue.length = 1 := rfl
  rw [convFuel, h2]
  omega


/-- C3: for every NFA, a discovered DFA-state key is in the returned
`acceptStates` iff the underlying set of NFA states recorded for that key
contains at least one member of the NFA's `acceptStates`; this holds for
every key in the returned DFA's states list. -/
theorem accept_iff_intersects (nfa : NFA) :
    ∀ k ∈ (convertNFAtoDFA nfa).states,
      (k ∈ (convertNFAtoDFA nfa).acceptStates ↔
        ∃ cs, (convRun nfa).dfaStates.lookup k = some cs ∧
          ∃ x ∈ cs, x ∈ nfa.acceptStates) := by
  intro k hk
  have hg := convRun_good nfa
  have hqnil := convRun_queue_nil nfa
  have hk' : k ∈ (convRun nfa).dfaStates.map Prod.fst := hk
  obtain ⟨p, hp, hpk⟩ := List.mem_map.mp hk'
  subst hpk
  have hiff := hg.acceptIff p hp (by rw [hqnil]; simp)
  have hlook : (convRun nfa).dfaStates.lookup p.1 = some p.2 :=
    lookup_of_mem_nodup hg.mapKeysNodup (by rw [Prod.mk.eta]; exact hp)
  constructor
  · intro hacc
    exact ⟨p.2, hlook, hiff.mp hacc⟩
  · rintro ⟨cs, hcs, hx⟩
    rw [hlook] at hcs
    simp only [Option.some.injEq] at hcs
    subst hcs
    exact hiff.mpr hx

theorem accept_iff_intersects_witness :
    "\x7bq0,q1,q2\x7d" ∈ (convertNFAtoDFA exampleNFA).acceptStates ↔
      ∃ cs, (convRun exampleNFA).dfaStates.lookup "\x7bq0,q1,q2\x7d" = some cs ∧
        ∃ x ∈ cs, x ∈ exampleNFA.acceptStates :=
  accept_iff_intersects exampleNFA _ (by decide)

/-- C4: throughout a run of `convertNFAtoDFA` (after any number `fuel` of
worklist iterations, the returned DFA being the `convFuel nfa` instance),
no two entries of the discovered DFA-state collection have underlying
NFA-state sets that are equal as sets: each distinct set appears as at
most one DFA state. -/
theorem discovered_sets_distinct (nfa : NFA) (fuel : Nat) :
    List.Pairwise (fun p q => ¬ (∀ x, x ∈ p.2 ↔ x ∈ q.2))
      (convLoop nfa fuel (convInit nfa)).dfaStates := by
  have hg : GoodConv nfa (convLoop nfa fuel (convInit nfa)) :=
    convLoop_good fuel _ (convInit_good nfa)
  have hnd := hg.mapKeysNodup
  apply List.Pairwise.imp_of_mem ?_ (List.pairwise_map.mp hnd)
  intro p q hp hq hne hiff
  obtain ⟨hk1, hnd1, _, _⟩ := hg.entryGood p hp
  obtain ⟨hk2, hnd2, _, _⟩ := hg.entryGood q hq
  exact hne (by rw [hk1, hk2, stateSetToString_eq_of_mem_iff hnd1 hnd2 hiff])

/-- C6: every DFA-state key in the states list of the returned DFA is
reachable from the DFA's start state by following zero or more entries of
the returned transitions mapping. -/
theorem states_reachable (nfa : NFA) :
    ∀ k ∈ (convertNFAtoDFA nfa).states,
      Relation.ReflTransGen (dfaStep (convertNFAtoDFA nfa).transitions)
        (convertNFAtoDFA nfa).startState k := by
  intro k hk
  have hk' : k ∈ (convRun nfa).dfaStates.map Prod.fst := hk
  obtain ⟨p, hp, hpk⟩ := List.mem_map.mp hk'
  subst hpk
  exact (convRun_good nfa).reach p hp

theorem states_reachable_witness :
    Relation.ReflTransGen (dfaStep (convertNFAtoDFA exampleNFA).transitions)
      (convertNFAtoDFA exampleNFA).startState "\x7bq0,q1,q2\x7d" :=
  states_reachable exampleNFA _ (by decide)

/-- C7: in the returned DFA, a processed state's transition entry has no
binding for a symbol whose closed successor set (the epsilon-closure of
the union of the member states' destinations for that symbol) is empty:
no entry mapping to an empty or placeholder key is ever recorded. -/
theorem empty_successor_no_entry (nfa : NFA) :
    ∀ k e, (convertNFAtoDFA nfa).transitions.lookup k = some e →
    ∀ sym, symNext nfa.transitions
        (((convRun nfa).dfaStates.lookup k).getD []) sym = [] →
      e.lookup sym = none := by
  intro k e hke sym hempty
  have hg := convRun_good nfa
  have hmem : (k, e) ∈ (convRun nfa).dfaTransitions := lookup_mem hke
  obtain ⟨cs, hcs, _, hemp⟩ := hg.transGood (k, e) hmem
  apply hemp
  rw [hcs] at hempty
  simp only [Option.getD_some] at hempty
  exact hempty

theorem empty_successor_no_entry_witness :
    List.lookup "a" ([] : List (String × String)) = none :=
  empty_successor_no_entry gapNFA "\x7bq1\x7d" [] (by decide) "a" (by decide)


theorem key_mem_sublistKeys {univ l : List String} (huniv : univ.Nodup)
    (hne : ¬ l = []) (hnd : l.Nodup) (hsub : ∀ x ∈ l, x ∈ univ) :
    stateSetToString l ∈
      ((univ.sublists).filter (fun t => !t.isEmpty)).map stateSetToString := by
  have hBsub : (univ.filter (fun x => decide (x ∈ l))).Sublist univ :=
    List.filter_sublist _
  have hBnodup : (univ.filter (fun x => decide (x ∈ l))).Nodup :=
    hBsub.nodup huniv
  have hBmem : ∀ x, x ∈ univ.filter (fun x => decide (x ∈ l)) ↔ x ∈ l := by
    intro x
    rw [List.mem_filter]
    constructor
    · intro ⟨_, h⟩
      simpa using h
    · intro h
      exact ⟨hsub x h, by simpa using h⟩
  have hBne : ¬ univ.filter (fun x => decide (x ∈ l)) = [] := by
    obtain ⟨a, ha⟩ := List.exists_mem_of_ne_nil l hne
    exact List.ne_nil_of_mem ((hBmem a).mpr ha)
  have hkey : stateSetToString l =
      stateSetToString (univ.filter (fun x => decide (x ∈ l))) :=
    stateSetToString_eq_of_mem_iff hnd hBnodup (fun x => ((hBmem x).symm))
  rw [hkey]
  apply List.mem_map.mpr
  refine ⟨_, List.mem_filter.mpr ⟨List.mem_sublists.mpr hBsub, ?_⟩, rfl⟩
  cases hB : univ.filter (fun x => decide (x ∈ l)) with
  | nil => exact absurd hB hBne
  | cons a t => simp

theorem length_filter_lt_of_mem {α : Type} (p : α → Bool) :
    ∀ (l : List α) (x : α), x ∈ l → p x = false →
    (l.filter p).length + 1 ≤ l.length := by
  intro l
  induction l with
  | nil => intro x hx _; simp at hx
  | cons a t ih =>
    intro x hx hpx
    rcases List.mem_cons.mp hx with h | h
    · subst h
      have := List.length_filter_le p t
      simp [List.filter_cons, hpx]
      omega
    · have := ih x h hpx
      cases hpa : p a
      · simp [List.filter_cons, hpa]
        omega
      · simp [List.filter_cons, hpa]
        omega

/-- C8: `convertNFAtoDFA` terminates on every well-formed NFA: the
worklist is fully drained within the supplied fuel, each canonical key is
recorded (and was enqueued) at most once, and the number of distinct
canonical keys ever created is bounded by 2 ^ |NFA.states| - 1, the number
of non-empty subsets of the NFA's states. -/
theorem conversion_terminates (nfa : NFA) (hwf : WellFormedNFA nfa) :
    (convRun nfa).dfaQueue = [] ∧
    ((convRun nfa).dfaStates.map Prod.fst).Nodup ∧
    (convRun nfa).dfaStates.length ≤ 2 ^ nfa.states.length - 1 := by
  obtain ⟨hstart, hdest⟩ := hwf
  have hg := convRun_good nfa
  refine ⟨convRun_queue_nil nfa, hg.mapKeysNodup, ?_⟩
  have hUnivSub : ∀ x ∈ stateUniv nfa, x ∈ jsSetOfList nfa.states := by
    intro x hx
    rw [mem_jsSetOfList]
    rw [stateUniv, mem_jsSetOfList] at hx
    rcases List.mem_cons.mp hx with h | h
    · rw [h]
      exact hstart
    · obtain ⟨p, hp, h2⟩ := List.mem_flatMap.mp h
      obtain ⟨q, hq, h3⟩ := List.mem_flatMap.mp h2
      exact hdest p hp q hq x h3
  have hkeysub : ∀ k ∈ (convRun nfa).dfaStates.map Prod.fst,
      k ∈ (((jsSetOfList nfa.states).sublists).filter
        (fun t => !t.isEmpty)).map stateSetToString := by
    intro k hk
    obtain ⟨p, hp, hpk⟩ := List.mem_map.mp hk
    subst hpk
    obtain ⟨hk1, hnd1, hne1, hsub1⟩ := hg.entryGood p hp
    rw [hk1]
    exact key_mem_sublistKeys (jsSetOfList_nodup _) hne1 hnd1
      (fun x hx => hUnivSub x (hsub1 x hx))
  have hlen1 : (convRun nfa).dfaStates.length =
      ((convRun nfa).dfaStates.map Prod.fst).length := (List.length_map _ _).symm
  have hcard1 : ((convRun nfa).dfaStates.map Prod.fst).toFinset.card =
      ((convRun nfa).dfaStates.map Prod.fst).length :=
    List.toFinset_card_of_nodup hg.mapKeysNodup
  have hsubfin : ((convRun nfa).dfaStates.map Prod.fst).toFinset ⊆
      ((((jsSetOfList nfa.states).sublists).filter
        (fun t => !t.isEmpty)).map stateSetToString).toFinset := by
    intro x hx
    rw [List.mem_toFinset] at hx ⊢
    exact hkeysub x hx
  have hcard2 := Finset.card_le_card hsubfin
  have hcard3 := List.toFinset_card_le
    ((((jsSetOfList nfa.states).sublists).filter
      (fun t => !t.isEmpty)).map stateSetToString)
  have hlen2 : (((((jsSetOfList nfa.states).sublists).filter
      (fun t => !t.isEmpty)).map stateSetToString)).length =
      (((jsSetOfList nfa.states).sublists).filter (fun t => !t.isEmpty)).length :=
    List.length_map _ _
  have hnilmem : ([] : List String) ∈ (jsSetOfList nfa.states).sublists :=
    List.mem_sublists.mpr (List.nil_sublist _)
  have hfl := length_filter_lt_of_mem (fun t : List String => !t.isEmpty)
    ((jsSetOfList nfa.states).sublists) [] hnilmem rfl
  have hsublen : (jsSetOfList nfa.states).sublists.length =
      2 ^ (jsSetOfList nfa.states).length := List.length_sublists _
  have hpow : 2 ^ (jsSetOfList nfa.states).length ≤ 2 ^ nfa.states.length :=
    Nat.pow_le_pow_right (by omega) (jsSetOfList_length_le _)
  omega

theorem conversion_terminates_witness :
    WellFormedNFA exampleNFA ∧
    ((convRun exampleNFA).dfaQueue = [] ∧
      ((convRun exampleNFA).dfaStates.map Prod.fst).Nodup ∧
      (convRun exampleNFA).dfaStates.length ≤ 2 ^ exampleNFA.states.length - 1) :=
  ⟨by unfold WellFormedNFA; decide, conversion_terminates exampleNFA (by unfold WellFormedNFA; decide)⟩

end NfaToDfa
